import Mathlib

/-!
Shallow embedding of `CheckPuzzlesTb` (src/t.py): a checker that confronts
lichess puzzles against the syzygy tablebase oracle.

The chess rules engine (python-chess `Board`) is external to the repository,
so board states are abstracted into an `Engine` structure providing exactly
the four operations the source uses: constructing a board from a FEN string,
pushing a UCI move, counting pieces, and rendering the current FEN.
-/

namespace CheckPuzzlesTb

/-- One entry of the `moves` list of a tablebase response
(`rep["moves"]` in `t.py`): uci / san strings, the category from the
replying side's point of view, the optional distance to mate, and the
checkmate flag. -/
structure TbMove where
  uci : String
  san : String
  category : String
  dtm : Option Int
  checkmate : Bool
deriving DecidableEq, Repr

/-- A tablebase response (`rep = r.json()` in `t.py`): root category,
optional root distance to mate, and the list of replies. -/
structure Rep where
  category : String
  dtm : Option Int
  moves : List TbMove
deriving DecidableEq, Repr

/-- The `Error` enum of `t.py`. -/
inductive Error where
  | Wrong
  | Multiple
deriving DecidableEq, Repr

/-- The `Puzzle` dataclass of `t.py`: `mate` is a ply count
(twice the number in the theme tag) when present. -/
structure Puzzle where
  fen : String
  moves : List String
  expected_winning : Bool
  mate : Option Int := none
deriving DecidableEq, Repr

/-- Abstract interface to the external chess engine (`chess.Board`):
`initBoard` is `Board(fen=...)`, `push` is `push_uci`, `nb_piece` is
`len(b.occupied)`, `fen` is `b.fen()`. -/
structure Engine (B : Type) where
  initBoard : String → B
  push : B → String → B
  nb_piece : B → Nat
  fen : B → String

/-- Function `pushAll e b ms` plays the moves `ms` in order from board `b`. -/
def pushAll {B : Type} (e : Engine B) (b : B) (ms : List String) : B :=
  ms.foldl e.push b

/-- Function `is_draw` of `t.py`, applied to the `category` field of its dict
argument: `api_rep["category"] in ["cursed-win", "draw", "blessed-loss"]`. -/
def is_draw (category : String) : Bool :=
  ["cursed-win", "draw", "blessed-loss"].contains category

/-- Body of the reply loop of `PuzzleChecker.check_winning`. -/
def winStep (expected_move : String) (res : Finset Error) (move : TbMove) : Finset Error :=
  if move.uci = expected_move ∧ move.category ≠ "loss" then
    insert Error.Wrong res
  else if move.category = "loss" ∧ move.uci ≠ expected_move then
    insert Error.Multiple res
  else res

/-- Method `PuzzleChecker.check_winning` of `t.py` (the `fen` argument is only
used for logging in the source and is kept for signature fidelity). -/
def check_winning (_fen : String) (expected_move : String) (rep : Rep) : Finset Error :=
  rep.moves.foldl (winStep expected_move)
    (if rep.category ≠ "win" then {Error.Wrong} else ∅)

/-- Body of the reply loop of `PuzzleChecker.check_drawing`. -/
def drawStep (expected_move : String) (res : Finset Error) (move : TbMove) : Finset Error :=
  if move.uci = expected_move ∧ ¬ is_draw move.category then
    insert Error.Wrong res
  else if is_draw move.category ∧ move.uci ≠ expected_move then
    insert Error.Multiple res
  else res

/-- Method `PuzzleChecker.check_drawing` of `t.py`. -/
def check_drawing (_fen : String) (expected_move : String) (rep : Rep) : Finset Error :=
  rep.moves.foldl (drawStep expected_move)
    (if ¬ is_draw rep.category then {Error.Wrong} else ∅)

/-- Body of the reply loop of `PuzzleChecker.check_mate`. -/
def mateStep (expected_move : String) (mate_in : Int) (res : Finset Error) (move : TbMove) :
    Finset Error :=
  if move.checkmate then res
  else if move.uci = expected_move then
    if move.category ≠ "loss" then insert Error.Wrong res else res
  else
    match move.dtm with
    | some d => if move.category = "loss" ∧ -d = mate_in - 1 then insert Error.Multiple res else res
    | none => res

/-- Method `PuzzleChecker.check_mate` of `t.py`. -/
def check_mate (_fen : String) (expected_move : String) (rep : Rep) (mate_in : Int) :
    Finset Error :=
  let res0 : Finset Error := if rep.category ≠ "win" then {Error.Wrong} else ∅
  let res1 : Finset Error :=
    match rep.dtm with
    | some d => if d ≠ mate_in then insert Error.Wrong res0 else res0
    | none => res0
  rep.moves.foldl (mateStep expected_move mate_in) res1

/-- Goal dispatch of `PuzzleChecker.req`, factored over an already fetched
response: mate goal first, then winning, else drawing. -/
def req_rep (fen : String) (expected_move : String) (puzzle : Puzzle) (move_number : Nat)
    (rep : Rep) : Finset Error :=
  match puzzle.mate with
  | some m => check_mate fen expected_move rep (m - (move_number : Int))
  | none =>
    if puzzle.expected_winning then check_winning fen expected_move rep
    else check_drawing fen expected_move rep

/-- Method `PuzzleChecker.req` of `t.py`, with the HTTP fetch abstracted into the
`oracle` function. -/
def req (oracle : String → Rep) (fen : String) (expected_move : String) (puzzle : Puzzle)
    (move_number : Nat) : Finset Error :=
  req_rep fen expected_move puzzle move_number (oracle fen)

/-- One iteration of the move loop of `PuzzleChecker.check_puzzle`, carrying
(board, accumulated errors, indices at which the oracle was queried).  The
third component instruments the loop with the query log; the first two are
exactly the source's state. -/
def checkStep {B : Type} (e : Engine B) (oracle : String → Rep) (puzzle : Puzzle)
    (st : B × Finset Error × List Nat) (im : Nat × String) : B × Finset Error × List Nat :=
  if im.1 % 2 = 1 ∧ e.nb_piece st.1 ≤ 7 then
    (e.push st.1 im.2, st.2.1 ∪ req oracle (e.fen st.1) im.2 puzzle im.1, st.2.2 ++ [im.1])
  else
    (e.push st.1 im.2, st.2.1, st.2.2)

/-- The full loop of `PuzzleChecker.check_puzzle` over the enumerated moves
(`i % 2` in Python is truthy exactly when `i % 2 = 1`). -/
def check_puzzle_aux {B : Type} (e : Engine B) (oracle : String → Rep) (puzzle : Puzzle) :
    B × Finset Error × List Nat :=
  (List.enum puzzle.moves).foldl (checkStep e oracle puzzle)
    (e.initBoard puzzle.fen, ∅, [])

/-- Method `PuzzleChecker.check_puzzle` of `t.py`: the accumulated error set. -/
def check_puzzle {B : Type} (e : Engine B) (oracle : String → Rep) (puzzle : Puzzle) :
    Finset Error :=
  (check_puzzle_aux e oracle puzzle).2.1

/-- The move indices at which `check_puzzle` queries the oracle, in order. -/
def check_puzzle_calls {B : Type} (e : Engine B) (oracle : String → Rep) (puzzle : Puzzle) :
    List Nat :=
  (check_puzzle_aux e oracle puzzle).2.2

/-- The board reached after the first `i` moves of the puzzle. -/
def boardAt {B : Type} (e : Engine B) (puzzle : Puzzle) (i : Nat) : B :=
  pushAll e (e.initBoard puzzle.fen) (puzzle.moves.take i)

end CheckPuzzlesTb

namespace CheckPuzzlesTb

/-- Recursive description of the error accumulation of the move loop of
`check_puzzle`, starting at move index `k` on board `b`. -/
def errsFrom {B : Type} (e : Engine B) (oracle : String → Rep) (puzzle : Puzzle) :
    Nat → B → List String → Finset Error
  | _, _, [] => ∅
  | k, b, m :: ms =>
    (if k % 2 = 1 ∧ e.nb_piece b ≤ 7 then req oracle (e.fen b) m puzzle k else ∅)
      ∪ errsFrom e oracle puzzle (k+1) (e.push b m) ms

/-- Recursive description of the oracle-query log of the move loop of
`check_puzzle`, starting at move index `k` on board `b`. -/
def callsFrom {B : Type} (e : Engine B) : Nat → B → List String → List Nat
  | _, _, [] => []
  | k, b, m :: ms =>
    (if k % 2 = 1 ∧ e.nb_piece b ≤ 7 then [k] else []) ++ callsFrom e (k+1) (e.push b m) ms

lemma checkFold_eq {B : Type} (e : Engine B) (oracle : String → Rep) (p : Puzzle) :
    ∀ (ms : List String) (k : Nat) (b : B) (acc : Finset Error) (cs : List Nat),
    (List.enumFrom k ms).foldl (checkStep e oracle p) (b, acc, cs)
      = (pushAll e b ms, acc ∪ errsFrom e oracle p k b ms, cs ++ callsFrom e k b ms) := by
  intro ms
  induction ms with
  | nil => intro k b acc cs; simp [pushAll, errsFrom, callsFrom]
  | cons m ms ih =>
    intro k b acc cs
    rw [List.enumFrom_cons, List.foldl_cons]
    by_cases h : k % 2 = 1 ∧ e.nb_piece b ≤ 7
    · have hs : checkStep e oracle p (b, acc, cs) (k, m)
          = (e.push b m, acc ∪ req oracle (e.fen b) m p k, cs ++ [k]) := by
        simp [checkStep, h]
      rw [hs, ih]
      simp [errsFrom, callsFrom, h, pushAll, Finset.union_assoc]
    · have hs : checkStep e oracle p (b, acc, cs) (k, m) = (e.push b m, acc, cs) := by
        simp [checkStep, h]
      rw [hs, ih]
      simp [errsFrom, callsFrom, h, pushAll]

lemma check_puzzle_aux_eq {B : Type} (e : Engine B) (oracle : String → Rep) (p : Puzzle) :
    check_puzzle_aux e oracle p
      = (pushAll e (e.initBoard p.fen) p.moves,
         errsFrom e oracle p 0 (e.initBoard p.fen) p.moves,
         callsFrom e 0 (e.initBoard p.fen) p.moves) := by
  have := checkFold_eq e oracle p p.moves 0 (e.initBoard p.fen) ∅ []
  simpa [check_puzzle_aux, List.enum] using this

lemma pushAll_nil {B : Type} (e : Engine B) (b : B) : pushAll e b [] = b := rfl

lemma pushAll_cons {B : Type} (e : Engine B) (b : B) (m : String) (ms : List String) :
    pushAll e b (m :: ms) = pushAll e (e.push b m) ms := rfl

lemma mem_errsFrom {B : Type} (e : Engine B) (oracle : String → Rep) (p : Puzzle) (x : Error) :
    ∀ (ms : List String) (k : Nat) (b : B),
    x ∈ errsFrom e oracle p k b ms ↔
      ∃ j, j < ms.length ∧ (k + j) % 2 = 1 ∧ e.nb_piece (pushAll e b (ms.take j)) ≤ 7 ∧
        x ∈ req oracle (e.fen (pushAll e b (ms.take j))) (ms.getD j "") p (k + j) := by
  intro ms
  induction ms with
  | nil => intro k b; simp [errsFrom]
  | cons m ms ih =>
    intro k b
    rw [errsFrom, Finset.mem_union]
    constructor
    · rintro (h | h)
      · by_cases hc : k % 2 = 1 ∧ e.nb_piece b ≤ 7
        · rw [if_pos hc] at h
          exact ⟨0, by simp, by simpa using hc.1, by simpa [pushAll_nil] using hc.2,
            by simpa [pushAll_nil] using h⟩
        · rw [if_neg hc] at h
          simp at h
      · obtain ⟨j, hj, h1, h2, h3⟩ := (ih (k+1) (e.push b m)).1 h
        have hk : k + (j + 1) = (k + 1) + j := by omega
        refine ⟨j + 1, ?_, ?_, ?_, ?_⟩
        · simp only [List.length_cons]; omega
        · rw [hk]; exact h1
        · rw [List.take_succ_cons, pushAll_cons]; exact h2
        · rw [List.take_succ_cons, pushAll_cons, List.getD_cons_succ, hk]; exact h3
    · rintro ⟨j, hj, h1, h2, h3⟩
      cases j with
      | zero =>
        left
        rw [List.take_zero, pushAll_nil] at h2 h3
        have hc : k % 2 = 1 ∧ e.nb_piece b ≤ 7 := ⟨by simpa using h1, h2⟩
        rw [if_pos hc]
        simpa using h3
      | succ j =>
        right
        have hk : k + (j + 1) = (k + 1) + j := by omega
        rw [List.take_succ_cons, pushAll_cons] at h2 h3
        rw [List.getD_cons_succ, hk] at h3
        rw [hk] at h1
        have hj' : j < ms.length := by simp only [List.length_cons] at hj; omega
        exact (ih (k+1) (e.push b m)).2 ⟨j, hj', h1, h2, h3⟩

lemma mem_callsFrom {B : Type} (e : Engine B) (i : Nat) :
    ∀ (ms : List String) (k : Nat) (b : B),
    i ∈ callsFrom e k b ms ↔
      ∃ j, j < ms.length ∧ i = k + j ∧ (k + j) % 2 = 1 ∧
        e.nb_piece (pushAll e b (ms.take j)) ≤ 7 := by
  intro ms
  induction ms with
  | nil => intro k b; simp [callsFrom]
  | cons m ms ih =>
    intro k b
    rw [callsFrom, List.mem_append, ih (k + 1) (e.push b m)]
    constructor
    · rintro (h | ⟨j, hj, hi, h1, h2⟩)
      · by_cases hc : k % 2 = 1 ∧ e.nb_piece b ≤ 7
        · rw [if_pos hc] at h
          simp only [List.mem_singleton] at h
          exact ⟨0, by simp, by omega, by simpa using hc.1, by simpa [pushAll_nil] using hc.2⟩
        · rw [if_neg hc] at h
          simp at h
      · refine ⟨j + 1, ?_, by omega, by omega, ?_⟩
        · simp only [List.length_cons]; omega
        · rw [List.take_succ_cons, pushAll_cons]; exact h2
    · rintro ⟨j, hj, hi, h1, h2⟩
      cases j with
      | zero =>
        left
        have hc : k % 2 = 1 ∧ e.nb_piece b ≤ 7 :=
          ⟨by simpa using h1, by simpa [pushAll_nil] using h2⟩
        rw [if_pos hc]
        simp only [List.mem_singleton]
        omega
      | succ j =>
        right
        rw [List.take_succ_cons, pushAll_cons] at h2
        exact ⟨j, by simp only [List.length_cons] at hj; omega, by omega, by omega, h2⟩

lemma callsFrom_lower {B : Type} (e : Engine B) :
    ∀ (ms : List String) (k : Nat) (b : B), ∀ i ∈ callsFrom e k b ms, k ≤ i := by
  intro ms k b i h
  obtain ⟨j, _, hi, _, _⟩ := (mem_callsFrom e i ms k b).1 h
  omega

lemma callsFrom_nodup {B : Type} (e : Engine B) :
    ∀ (ms : List String) (k : Nat) (b : B), (callsFrom e k b ms).Nodup := by
  intro ms
  induction ms with
  | nil => intro k b; simp [callsFrom]
  | cons m ms ih =>
    intro k b
    rw [callsFrom]
    by_cases hc : k % 2 = 1 ∧ e.nb_piece b ≤ 7
    · rw [if_pos hc]
      refine List.Nodup.append (by simp) (ih (k + 1) (e.push b m)) ?_
      intro a ha hb
      have := callsFrom_lower e ms (k + 1) (e.push b m) a hb
      simp only [List.mem_singleton] at ha
      omega
    · rw [if_neg hc]
      simpa using ih (k + 1) (e.push b m)

lemma mem_check_puzzle {B : Type} (e : Engine B) (oracle : String → Rep) (p : Puzzle)
    (x : Error) :
    x ∈ check_puzzle e oracle p ↔
      ∃ i, i < p.moves.length ∧ i % 2 = 1 ∧ e.nb_piece (boardAt e p i) ≤ 7 ∧
        x ∈ req oracle (e.fen (boardAt e p i)) (p.moves.getD i "") p i := by
  rw [check_puzzle, check_puzzle_aux_eq e oracle p]
  rw [mem_errsFrom]
  constructor
  · rintro ⟨j, hj, h1, h2, h3⟩
    exact ⟨j, hj, by simpa using h1, by simpa [boardAt] using h2, by simpa [boardAt] using h3⟩
  · rintro ⟨i, hi, h1, h2, h3⟩
    exact ⟨i, hi, by simpa using h1, by simpa [boardAt] using h2, by simpa [boardAt] using h3⟩

/-- C3: `check_puzzle` queries the oracle exactly at the odd move indices
whose preceding position has at most 7 pieces; every move is applied to the
board; the returned finding is the union of the per-position error sets. -/
theorem check_puzzle_verification_points {B : Type} (e : Engine B) (oracle : String → Rep)
    (p : Puzzle) :
    (∀ i : Nat, i ∈ check_puzzle_calls e oracle p ↔
        i < p.moves.length ∧ i % 2 = 1 ∧ e.nb_piece (boardAt e p i) ≤ 7)
  ∧ (check_puzzle_calls e oracle p).Nodup
  ∧ (check_puzzle_aux e oracle p).1 = pushAll e (e.initBoard p.fen) p.moves
  ∧ (∀ x : Error, x ∈ check_puzzle e oracle p ↔
      ∃ i, i < p.moves.length ∧ i % 2 = 1 ∧ e.nb_piece (boardAt e p i) ≤ 7 ∧
        x ∈ req oracle (e.fen (boardAt e p i)) (p.moves.getD i "") p i) := by
  have haux := check_puzzle_aux_eq e oracle p
  refine ⟨?_, ?_, ?_, mem_check_puzzle e oracle p⟩
  · intro i
    rw [check_puzzle_calls, haux]
    rw [mem_callsFrom]
    constructor
    · rintro ⟨j, hj, hi, h1, h2⟩
      subst hi
      exact ⟨by simpa using hj, by simpa using h1, by simpa [boardAt] using h2⟩
    · rintro ⟨hj, h1, h2⟩
      exact ⟨i, hj, by omega, by simpa using h1, by simpa [boardAt] using h2⟩
  · rw [check_puzzle_calls, haux]
    exact callsFrom_nodup e p.moves 0 (e.initBoard p.fen)
  · rw [haux]

lemma mem_winStep_foldl (exp : String) (x : Error) :
    ∀ (ms : List TbMove) (acc : Finset Error),
    x ∈ ms.foldl (winStep exp) acc ↔
      x ∈ acc ∨ ∃ mv ∈ ms,
        (x = Error.Wrong ∧ mv.uci = exp ∧ mv.category ≠ "loss") ∨
        (x = Error.Multiple ∧ mv.category = "loss" ∧ mv.uci ≠ exp) := by
  intro ms
  induction ms with
  | nil => intro acc; simp
  | cons mv ms ih =>
    intro acc
    rw [List.foldl_cons, ih]
    simp only [List.mem_cons, winStep]
    by_cases h1 : mv.uci = exp ∧ mv.category ≠ "loss"
    · rw [if_pos h1]
      obtain ⟨ha, hb⟩ := h1
      simp only [Finset.mem_insert]
      constructor
      · rintro (⟨h | h⟩ | ⟨mv', hmv', h⟩)
        · exact Or.inr ⟨mv, Or.inl rfl, Or.inl ⟨h, ha, hb⟩⟩
        · exact Or.inl h
        · exact Or.inr ⟨mv', Or.inr hmv', h⟩
      · rintro (h | ⟨mv', hmv' | hmv', h⟩)
        · exact Or.inl (Or.inr h)
        · subst hmv'
          rcases h with ⟨hx, _, _⟩ | ⟨hx, hc, hu⟩
          · exact Or.inl (Or.inl hx)
          · exact absurd hc hb
        · exact Or.inr ⟨mv', hmv', h⟩
    · rw [if_neg h1]
      by_cases h2 : mv.category = "loss" ∧ mv.uci ≠ exp
      · rw [if_pos h2]
        obtain ⟨ha, hb⟩ := h2
        simp only [Finset.mem_insert]
        constructor
        · rintro (⟨h | h⟩ | ⟨mv', hmv', h⟩)
          · exact Or.inr ⟨mv, Or.inl rfl, Or.inr ⟨h, ha, hb⟩⟩
          · exact Or.inl h
          · exact Or.inr ⟨mv', Or.inr hmv', h⟩
        · rintro (h | ⟨mv', hmv' | hmv', h⟩)
          · exact Or.inl (Or.inr h)
          · subst hmv'
            rcases h with ⟨hx, hu, hc⟩ | ⟨hx, _, _⟩
            · exact absurd hu (fun hu => h1 ⟨hu, hc⟩)
            · exact Or.inl (Or.inl hx)
          · exact Or.inr ⟨mv', hmv', h⟩
      · rw [if_neg h2]
        constructor
        · rintro (h | ⟨mv', hmv', h⟩)
          · exact Or.inl h
          · exact Or.inr ⟨mv', Or.inr hmv', h⟩
        · rintro (h | ⟨mv', hmv' | hmv', h⟩)
          · exact Or.inl h
          · subst hmv'
            rcases h with ⟨hx, hu, hc⟩ | ⟨hx, hc, hu⟩
            · exact absurd ⟨hu, hc⟩ h1
            · exact absurd ⟨hc, hu⟩ h2
          · exact Or.inr ⟨mv', hmv', h⟩

/-- Membership of `Error.Wrong` in `check_winning`. -/
lemma wrong_mem_check_winning (fen exp : String) (rep : Rep) :
    Error.Wrong ∈ check_winning fen exp rep ↔
      rep.category ≠ "win" ∨ ∃ mv ∈ rep.moves, mv.uci = exp ∧ mv.category ≠ "loss" := by
  rw [check_winning, mem_winStep_foldl]
  by_cases h : rep.category = "win" <;> simp [h]

/-- Membership of `Error.Multiple` in `check_winning`. -/
lemma multiple_mem_check_winning (fen exp : String) (rep : Rep) :
    Error.Multiple ∈ check_winning fen exp rep ↔
      ∃ mv ∈ rep.moves, mv.category = "loss" ∧ mv.uci ≠ exp := by
  rw [check_winning, mem_winStep_foldl]
  by_cases h : rep.category = "win" <;> simp [h]

lemma mem_mateStep_foldl (exp : String) (mate_in : Int) (x : Error) :
    ∀ (ms : List TbMove) (acc : Finset Error),
    x ∈ ms.foldl (mateStep exp mate_in) acc ↔
      x ∈ acc ∨ ∃ mv ∈ ms, mv.checkmate = false ∧
        ((x = Error.Wrong ∧ mv.uci = exp ∧ mv.category ≠ "loss") ∨
         (x = Error.Multiple ∧ mv.uci ≠ exp ∧ mv.category = "loss" ∧
           ∃ d, mv.dtm = some d ∧ -d = mate_in - 1)) := by
  intro ms
  induction ms with
  | nil => intro acc; simp
  | cons mv ms ih =>
    intro acc
    rw [List.foldl_cons, ih]
    simp only [List.mem_cons]
    cases hcm : mv.checkmate with
    | true =>
      rw [show mateStep exp mate_in acc mv = acc from by rw [mateStep, if_pos hcm]]
      constructor
      · rintro (h | ⟨mv', hmv', h⟩)
        · exact Or.inl h
        · exact Or.inr ⟨mv', Or.inr hmv', h⟩
      · rintro (h | ⟨mv', hmv' | hmv', h⟩)
        · exact Or.inl h
        · subst hmv'; rw [hcm] at h; exact absurd h.1 (by simp)
        · exact Or.inr ⟨mv', hmv', h⟩
    | false =>
      by_cases huci : mv.uci = exp
      · by_cases hcat : mv.category ≠ "loss"
        · rw [show mateStep exp mate_in acc mv = insert Error.Wrong acc from by
            rw [mateStep, if_neg (by simp [hcm]), if_pos huci, if_pos hcat]]
          simp only [Finset.mem_insert]
          constructor
          · rintro (⟨h | h⟩ | ⟨mv', hmv', h⟩)
            · exact Or.inr ⟨mv, Or.inl rfl, hcm, Or.inl ⟨h, huci, hcat⟩⟩
            · exact Or.inl h
            · exact Or.inr ⟨mv', Or.inr hmv', h⟩
          · rintro (h | ⟨mv', hmv' | hmv', h⟩)
            · exact Or.inl (Or.inr h)
            · subst hmv'
              rcases h.2 with ⟨hx, _, _⟩ | ⟨_, hu, _⟩
              · exact Or.inl (Or.inl hx)
              · exact absurd huci hu
            · exact Or.inr ⟨mv', hmv', h⟩
        · rw [show mateStep exp mate_in acc mv = acc from by
            rw [mateStep, if_neg (by simp [hcm]), if_pos huci, if_neg hcat]]
          constructor
          · rintro (h | ⟨mv', hmv', h⟩)
            · exact Or.inl h
            · exact Or.inr ⟨mv', Or.inr hmv', h⟩
          · rintro (h | ⟨mv', hmv' | hmv', h⟩)
            · exact Or.inl h
            · subst hmv'
              rcases h.2 with ⟨_, _, hc⟩ | ⟨_, hu, _⟩
              · exact absurd hc hcat
              · exact absurd huci hu
            · exact Or.inr ⟨mv', hmv', h⟩
      · cases hdtm : mv.dtm with
        | some d =>
          by_cases hl : mv.category = "loss" ∧ -d = mate_in - 1
          · rw [show mateStep exp mate_in acc mv = insert Error.Multiple acc from by
              rw [mateStep, if_neg (by simp [hcm]), if_neg huci, hdtm]; exact if_pos hl]
            simp only [Finset.mem_insert]
            constructor
            · rintro (⟨h | h⟩ | ⟨mv', hmv', h⟩)
              · exact Or.inr ⟨mv, Or.inl rfl, hcm, Or.inr ⟨h, huci, hl.1, d, hdtm, hl.2⟩⟩
              · exact Or.inl h
              · exact Or.inr ⟨mv', Or.inr hmv', h⟩
            · rintro (h | ⟨mv', hmv' | hmv', h⟩)
              · exact Or.inl (Or.inr h)
              · subst hmv'
                rcases h.2 with ⟨_, hu, _⟩ | ⟨hx, _, _, _⟩
                · exact absurd hu huci
                · exact Or.inl (Or.inl hx)
              · exact Or.inr ⟨mv', hmv', h⟩
          · rw [show mateStep exp mate_in acc mv = acc from by
              rw [mateStep, if_neg (by simp [hcm]), if_neg huci, hdtm]; exact if_neg hl]
            constructor
            · rintro (h | ⟨mv', hmv', h⟩)
              · exact Or.inl h
              · exact Or.inr ⟨mv', Or.inr hmv', h⟩
            · rintro (h | ⟨mv', hmv' | hmv', h⟩)
              · exact Or.inl h
              · subst hmv'
                rcases h.2 with ⟨_, hu, _⟩ | ⟨_, _, hc, d', hd', hmi⟩
                · exact absurd hu huci
                · rw [hdtm] at hd'
                  cases hd'
                  exact absurd ⟨hc, hmi⟩ hl
              · exact Or.inr ⟨mv', hmv', h⟩
        | none =>
          rw [show mateStep exp mate_in acc mv = acc from by
            rw [mateStep, if_neg (by simp [hcm]), if_neg huci, hdtm]]
          constructor
          · rintro (h | ⟨mv', hmv', h⟩)
            · exact Or.inl h
            · exact Or.inr ⟨mv', Or.inr hmv', h⟩
          · rintro (h | ⟨mv', hmv' | hmv', h⟩)
            · exact Or.inl h
            · subst hmv'
              rcases h.2 with ⟨_, hu, _⟩ | ⟨_, _, _, d', hd', _⟩
              · exact absurd hu huci
              · rw [hdtm] at hd'
                cases hd'
            · exact Or.inr ⟨mv', hmv', h⟩

/-- Membership of `Error.Wrong` in `check_mate`. -/
lemma wrong_mem_check_mate (fen exp : String) (rep : Rep) (mate_in : Int) :
    Error.Wrong ∈ check_mate fen exp rep mate_in ↔
      rep.category ≠ "win" ∨ (∃ d, rep.dtm = some d ∧ d ≠ mate_in) ∨
        ∃ mv ∈ rep.moves, mv.checkmate = false ∧ mv.uci = exp ∧ mv.category ≠ "loss" := by
  simp only [check_mate]
  rw [mem_mateStep_foldl]
  cases hd : rep.dtm with
  | none =>
    by_cases hcat : rep.category = "win" <;> simp [hd, hcat]
  | some d =>
    by_cases hcat : rep.category = "win" <;> by_cases hdm : d = mate_in <;>
      simp [hd, hcat, hdm]

/-- Membership of `Error.Multiple` in `check_mate`. -/
lemma multiple_mem_check_mate (fen exp : String) (rep : Rep) (mate_in : Int) :
    Error.Multiple ∈ check_mate fen exp rep mate_in ↔
      ∃ mv ∈ rep.moves, mv.checkmate = false ∧ mv.uci ≠ exp ∧ mv.category = "loss" ∧
        ∃ d, mv.dtm = some d ∧ -d = mate_in - 1 := by
  simp only [check_mate]
  rw [mem_mateStep_foldl]
  cases hd : rep.dtm with
  | none =>
    by_cases hcat : rep.category = "win" <;> simp [hd, hcat]
  | some d =>
    by_cases hcat : rep.category = "win" <;> by_cases hdm : d = mate_in <;>
      simp [hd, hcat, hdm]

/-- C2: for a MateIn-goal puzzle verified at move index `i`, the classifier
is `check_mate` with `remainingPlies = n - i`; `Wrong` appears iff the root
category is not win, or the root distance-to-mate is known and differs from
`remainingPlies`, or the expected non-checkmate reply has a category other
than loss; `Multiple` appears iff some non-expected, non-checkmate reply
with known distance-to-mate has category loss and sign-adjusted mate
distance `remainingPlies - 1`; replies with unknown distance never add
`Multiple`. -/
theorem mate_goal_classification (oracle : String → Rep) (p : Puzzle) (n : Int)
    (hm : p.mate = some n) :
    (∀ (fen exp : String) (i : Nat),
      req oracle fen exp p i = check_mate fen exp (oracle fen) (n - (i : Int)))
  ∧ (∀ (fen exp : String) (rep : Rep) (mate_in : Int),
      (Error.Wrong ∈ check_mate fen exp rep mate_in ↔
        rep.category ≠ "win" ∨ (∃ d, rep.dtm = some d ∧ d ≠ mate_in) ∨
          ∃ mv ∈ rep.moves, mv.checkmate = false ∧ mv.uci = exp ∧ mv.category ≠ "loss")
    ∧ (Error.Multiple ∈ check_mate fen exp rep mate_in ↔
        ∃ mv ∈ rep.moves, mv.checkmate = false ∧ mv.uci ≠ exp ∧ mv.category = "loss" ∧
          ∃ d, mv.dtm = some d ∧ -d = mate_in - 1)) := by
  constructor
  · intro fen exp i
    rw [req, req_rep, hm]
  · intro fen exp rep mate_in
    exact ⟨wrong_mem_check_mate fen exp rep mate_in, multiple_mem_check_mate fen exp rep mate_in⟩

/-- C1: for a Win-goal puzzle, `check_puzzle` returns `Wrong` iff at some
verified position the root category is not win or the expected reply has a
category other than loss, and `Multiple` iff at some verified position a
non-expected reply has category loss. -/
theorem win_goal_wrong_multiple_iff {B : Type} (e : Engine B) (oracle : String → Rep)
    (p : Puzzle) (hm : p.mate = none) (hw : p.expected_winning = true) :
    (Error.Wrong ∈ check_puzzle e oracle p ↔
      ∃ i, i < p.moves.length ∧ i % 2 = 1 ∧ e.nb_piece (boardAt e p i) ≤ 7 ∧
        ((oracle (e.fen (boardAt e p i))).category ≠ "win" ∨
         ∃ mv ∈ (oracle (e.fen (boardAt e p i))).moves,
           mv.uci = p.moves.getD i "" ∧ mv.category ≠ "loss"))
  ∧ (Error.Multiple ∈ check_puzzle e oracle p ↔
      ∃ i, i < p.moves.length ∧ i % 2 = 1 ∧ e.nb_piece (boardAt e p i) ≤ 7 ∧
        ∃ mv ∈ (oracle (e.fen (boardAt e p i))).moves,
          mv.category = "loss" ∧ mv.uci ≠ p.moves.getD i "") := by
  have hreq : ∀ (fen m : String) (i : Nat),
      req oracle fen m p i = check_winning fen m (oracle fen) := by
    intro fen m i
    rw [req, req_rep, hm]
    rw [if_pos hw]
  have hmem := mem_check_puzzle e oracle p
  constructor
  · rw [hmem Error.Wrong]
    constructor
    · rintro ⟨i, hi, h1, h2, h3⟩
      rw [hreq, wrong_mem_check_winning] at h3
      exact ⟨i, hi, h1, h2, h3⟩
    · rintro ⟨i, hi, h1, h2, h3⟩
      refine ⟨i, hi, h1, h2, ?_⟩
      rw [hreq, wrong_mem_check_winning]
      exact h3
  · rw [hmem Error.Multiple]
    constructor
    · rintro ⟨i, hi, h1, h2, h3⟩
      rw [hreq, multiple_mem_check_winning] at h3
      exact ⟨i, hi, h1, h2, h3⟩
    · rintro ⟨i, hi, h1, h2, h3⟩
      refine ⟨i, hi, h1, h2, ?_⟩
      rw [hreq, multiple_mem_check_winning]
      exact h3

/-- A tiny concrete engine used by witnesses: a board is a FEN string
paired with a piece count that each push decrements by one. -/
def witEngine : Engine (String × Nat) where
  initBoard := fun f => (f, 8)
  push := fun b m => (b.1 ++ m, b.2 - 1)
  nb_piece := fun b => b.2
  fen := fun b => b.1

/-- Witness puzzle for the Win goal: two moves, the odd index 1 is verified. -/
def wPuzzleC1 : Puzzle := { fen := "F", moves := ["a", "b"], expected_winning := true }

/-- Witness oracle for the Win goal: at the verified position the root
category is draw and the expected reply is win. -/
def wOracleC1 : String → Rep := fun f =>
  if f = "Fa" then { category := "draw", dtm := none,
                     moves := [{ uci := "b", san := "b", category := "win", dtm := none,
                                 checkmate := false }] }
  else { category := "win", dtm := none, moves := [] }

theorem win_goal_wrong_multiple_iff_witness :
    Error.Wrong ∈ check_puzzle witEngine wOracleC1 wPuzzleC1 ∧
      Error.Multiple ∉ check_puzzle witEngine wOracleC1 wPuzzleC1 := by
  have h := win_goal_wrong_multiple_iff witEngine wOracleC1 wPuzzleC1 rfl rfl
  exact ⟨h.1.mpr ⟨1, by decide, by decide, by decide, Or.inl (by decide)⟩, by decide⟩

/-- Witness puzzle for the MateIn goal (`mate` is already a ply count). -/
def wPuzzleC2 : Puzzle := { fen := "F", moves := ["a", "b"], expected_winning := true,
                            mate := some 2 }

/-- Witness response for the MateIn goal: root category draw, so `Wrong`. -/
def wRepC2 : Rep := { category := "draw", dtm := none, moves := [] }

theorem mate_goal_classification_witness :
    req (fun _ => wRepC2) "Fa" "b" wPuzzleC2 1
      = check_mate "Fa" "b" wRepC2 (2 - ((1 : Nat) : Int))
    ∧ Error.Wrong ∈ check_mate "Fa" "b" wRepC2 1 := by
  have h := mate_goal_classification (fun _ => wRepC2) wPuzzleC2 2 rfl
  exact ⟨h.1 "Fa" "b" 1, (h.2 "Fa" "b" wRepC2 1).1.mpr (Or.inl (by decide))⟩

/-- Python `str.split()` (no argument): split on runs of whitespace,
dropping empty tokens.  Implemented by structural recursion on the
character list so that it evaluates by `decide`/`rfl`. -/
def wordsAux : List Char → List Char → List String
  | [], [] => []
  | [], cur => [String.mk cur.reverse]
  | c :: cs, cur =>
    if c.isWhitespace then
      (if cur = [] then wordsAux cs [] else String.mk cur.reverse :: wordsAux cs [])
    else wordsAux cs (c :: cur)

/-- Python `s.split()`. -/
def pyWords (s : String) : List String := wordsAux s.toList []

/-- The move-replay loop of `FileHandler.has_puzzle_fewer_8p`: push each
move in turn and return `True` as soon as the piece count drops to 7 or
fewer. -/
def loop8p {B : Type} (e : Engine B) : B → List String → Bool
  | _, [] => false
  | b, m :: ms =>
    let b2 := e.push b m
    if e.nb_piece b2 ≤ 7 then true else loop8p e b2 ms

/-- Method `FileHandler.has_puzzle_fewer_8p` of `t.py`: the database row is a list
of fields, field 1 is the FEN and field 2 the space-separated moves. -/
def has_puzzle_fewer_8p {B : Type} (e : Engine B) (row : List String) : Bool :=
  let b := e.initBoard (row.getD 1 "")
  let moves := pyWords (row.getD 2 "")
  let nb_pieces := e.nb_piece b
  if (nb_pieces : Int) - moves.length > 7 then false
  else if nb_pieces ≤ 7 then true
  else loop8p e b moves

lemma loop8p_iff {B : Type} (e : Engine B) :
    ∀ (ms : List String) (b : B),
    loop8p e b ms = true ↔
      ∃ k, 0 < k ∧ k ≤ ms.length ∧ e.nb_piece (pushAll e b (ms.take k)) ≤ 7 := by
  intro ms
  induction ms with
  | nil =>
    intro b
    simp only [loop8p, List.length_nil]
    constructor
    · intro h; cases h
    · rintro ⟨k, hk0, hk, -⟩; omega
  | cons m ms ih =>
    intro b
    rw [loop8p]
    by_cases h : e.nb_piece (e.push b m) ≤ 7
    · rw [if_pos h]
      simp only [true_iff]
      exact ⟨1, by omega, by simp only [List.length_cons]; omega, by
        simpa [List.take_succ_cons, pushAll_cons, pushAll_nil] using h⟩
    · rw [if_neg h, ih (e.push b m)]
      constructor
      · rintro ⟨k, hk0, hk, hle⟩
        refine ⟨k + 1, by omega, by simp only [List.length_cons]; omega, ?_⟩
        rw [List.take_succ_cons, pushAll_cons]
        exact hle
      · rintro ⟨k, hk0, hk, hle⟩
        cases k with
        | zero => omega
        | succ k =>
          rw [List.take_succ_cons, pushAll_cons] at hle
          cases k with
          | zero =>
            rw [List.take_zero, pushAll_nil] at hle
            exact absurd hle h
          | succ k =>
            exact ⟨k + 1, by omega, by simp only [List.length_cons] at hk; omega, hle⟩

lemma pushAll_nb_lower {B : Type} (e : Engine B)
    (hcap : ∀ (b : B) (m : String), e.nb_piece b ≤ e.nb_piece (e.push b m) + 1) :
    ∀ (ms : List String) (b : B), e.nb_piece b ≤ e.nb_piece (pushAll e b ms) + ms.length := by
  intro ms
  induction ms with
  | nil => intro b; simp [pushAll_nil]
  | cons m ms ih =>
    intro b
    rw [pushAll_cons, List.length_cons]
    have h1 := hcap b m
    have h2 := ih (e.push b m)
    omega

/-- C4: provided each move removes at most one piece (true of chess), the
filter accepts a row iff some prefix of the move sequence (the empty one
included) reaches a position with at most 7 pieces, and the
`initialCount - moveCount > 7` shortcut rejects without changing this
outcome. -/
theorem has_puzzle_fewer_8p_iff {B : Type} (e : Engine B) (row : List String)
    (hcap : ∀ (b : B) (m : String), e.nb_piece b ≤ e.nb_piece (e.push b m) + 1) :
    (has_puzzle_fewer_8p e row = true ↔
      ∃ k, k ≤ (pyWords (row.getD 2 "")).length ∧
        e.nb_piece (pushAll e (e.initBoard (row.getD 1 ""))
          ((pyWords (row.getD 2 "")).take k)) ≤ 7)
  ∧ ((e.nb_piece (e.initBoard (row.getD 1 "")) : Int) - (pyWords (row.getD 2 "")).length > 7 →
      has_puzzle_fewer_8p e row = false) := by
  set b0 := e.initBoard (row.getD 1 "") with hb0
  set moves := pyWords (row.getD 2 "") with hmoves
  constructor
  · rw [has_puzzle_fewer_8p]
    by_cases hshort : (e.nb_piece b0 : Int) - moves.length > 7
    · rw [if_pos hshort]
      refine iff_of_false (by simp) ?_
      rintro ⟨k, hk, hle⟩
      have hlow := pushAll_nb_lower e hcap (moves.take k) b0
      have htk : (moves.take k).length ≤ moves.length := by
        rw [List.length_take]; omega
      omega
    · rw [if_neg hshort]
      by_cases h0 : e.nb_piece b0 ≤ 7
      · rw [if_pos h0]
        simp only [true_iff]
        exact ⟨0, by omega, by simpa [pushAll_nil] using h0⟩
      · rw [if_neg h0, loop8p_iff]
        constructor
        · rintro ⟨k, hk0, hk, hle⟩
          exact ⟨k, hk, hle⟩
        · rintro ⟨k, hk, hle⟩
          cases k with
          | zero =>
            rw [List.take_zero, pushAll_nil] at hle
            exact absurd hle h0
          | succ k =>
            exact ⟨k + 1, by omega, hk, hle⟩
  · intro hshort
    rw [has_puzzle_fewer_8p]
    rw [if_pos hshort]

theorem has_puzzle_fewer_8p_iff_witness :
    has_puzzle_fewer_8p witEngine ["id", "f", "a b c"] = true := by
  have hcap : ∀ (b : String × Nat) (m : String),
      witEngine.nb_piece b ≤ witEngine.nb_piece (witEngine.push b m) + 1 := by
    intro b m
    simp only [witEngine]
    omega
  exact ((has_puzzle_fewer_8p_iff witEngine ["id", "f", "a b c"] hcap).1).mpr
    ⟨1, by decide, by decide⟩

/-- Observable events of a checking run (`PuzzleChecker.check`): an oracle
call tagged with the puzzle id in flight and the queried FEN, a ledger
append, and the `time.sleep(0.55)` rate-limit delay. -/
inductive Event where
  | call (pid fen : String)
  | write (line : String)
  | sleep
deriving DecidableEq, Repr

/-- Deterministic rendering of `[x.name for x in res]` (Python set
iteration order is unspecified; one order is fixed here). -/
def errorNames (res : Finset Error) : List String :=
  (if Error.Wrong ∈ res then ["Wrong"] else []) ++
    (if Error.Multiple ∈ res then ["Multiple"] else [])

/-- Python `" ".join`. -/
def joinSp : List String → String
  | [] => ""
  | [x] => x
  | x :: xs => x ++ " " ++ joinSp xs

/-- The ledger line appended for one checked puzzle:
`output.write(puzzle_id + " " + " ".join([x.name for x in res]) + "\n")`. -/
def mkLine (pid : String) (res : Finset Error) : String :=
  pid ++ " " ++ joinSp (errorNames res) ++ "\n"

/-- The move loop of `check_puzzle` under a fallible oracle (`none` models
an `OracleError`: exhausted retries or malformed payload).  Returns the
accumulated finding — or `none` when the exception propagates — together
with the oracle-call events emitted before returning. -/
def puzzle_run_go {B : Type} (e : Engine B) (oracle : String → Option Rep) (pid : String)
    (p : Puzzle) : B → Finset Error → Nat → List String → Option (Finset Error) × List Event
  | _, res, _, [] => (some res, [])
  | b, res, i, m :: ms =>
    if i % 2 = 1 ∧ e.nb_piece b ≤ 7 then
      match oracle (e.fen b) with
      | none => (none, [Event.call pid (e.fen b)])
      | some rep =>
        let out := puzzle_run_go e oracle pid p (e.push b m)
          (res ∪ req_rep (e.fen b) m p i rep) (i + 1) ms
        (out.1, Event.call pid (e.fen b) :: out.2)
    else puzzle_run_go e oracle pid p (e.push b m) res (i + 1) ms

/-- Runs `check_puzzle` under a fallible oracle, from the start of the puzzle. -/
def puzzle_run {B : Type} (e : Engine B) (oracle : String → Option Rep) (pid : String)
    (p : Puzzle) : Option (Finset Error) × List Event :=
  puzzle_run_go e oracle pid p (e.initBoard p.fen) ∅ 0 p.moves

/-- The driver loop of `PuzzleChecker.check` over the unchecked list:
returns the ledger lines appended and the event trace.  There is no
exception handler in the source, so an oracle failure stops the loop:
nothing more is written after it. -/
def check_go {B : Type} (e : Engine B) (oracle : String → Option Rep) :
    List (String × Puzzle) → List String × List Event
  | [] => ([], [])
  | (pid, p) :: rest =>
    match puzzle_run e oracle pid p with
    | (none, evs) => ([], evs)
    | (some res, evs) =>
      let line := mkLine pid res
      let out := check_go e oracle rest
      (line :: out.1, evs ++ Event.write line :: Event.sleep :: out.2)

lemma puzzle_run_go_calls {B : Type} (e : Engine B) (oracle : String → Option Rep)
    (pid : String) (p : Puzzle) :
    ∀ (ms : List String) (b : B) (res : Finset Error) (i : Nat),
    ∀ ev ∈ (puzzle_run_go e oracle pid p b res i ms).2, ∃ f, ev = Event.call pid f := by
  intro ms
  induction ms with
  | nil => intro b res i ev hev; simp [puzzle_run_go] at hev
  | cons m ms ih =>
    intro b res i ev hev
    rw [puzzle_run_go] at hev
    by_cases hc : i % 2 = 1 ∧ e.nb_piece b ≤ 7
    · rw [if_pos hc] at hev
      cases ho : oracle (e.fen b) with
      | none =>
        rw [ho] at hev
        simp only [List.mem_singleton] at hev
        exact ⟨e.fen b, hev⟩
      | some rep =>
        rw [ho] at hev
        simp only [List.mem_cons] at hev
        rcases hev with hev | hev
        · exact ⟨e.fen b, hev⟩
        · exact ih _ _ _ ev hev
    · rw [if_neg hc] at hev
      exact ih _ _ _ ev hev

/-- C5 counterexample fixtures: `cexPuz1` triggers an oracle failure at its
verified position, `cexPuz2` verifies cleanly. -/
def cexPuz1 : Puzzle := { fen := "A", moves := ["x", "y"], expected_winning := true }

/-- Second fixture puzzle, which the oracle answers successfully. -/
def cexPuz2 : Puzzle := { fen := "B", moves := ["x", "y"], expected_winning := true }

/-- Oracle failing exactly at `cexPuz1`'s verified position. -/
def cexOracle : String → Option Rep := fun f =>
  if f = "Ax" then none else some { category := "win", dtm := none, moves := [] }

/-- C5 counterexample: when the first puzzle's oracle lookup fails, the
driver loop terminates instead of continuing: the second puzzle — which
verifies cleanly when run alone — gets no ledger line in the combined
run. -/
theorem check_abort_counterexample :
    (check_go witEngine cexOracle [("p1", cexPuz1), ("p2", cexPuz2)]).1 = []
    ∧ (check_go witEngine cexOracle [("p2", cexPuz2)]).1 = [mkLine "p2" ∅] := by
  exact ⟨by decide, by decide⟩

/-- C5 (amended): an irrecoverable oracle failure appends nothing to the
ledger for the puzzle in flight, but it also terminates the driver loop:
only the puzzles completed before the failure get ledger lines; the failing
puzzle and every later one are left unchecked for the next run. -/
theorem oracle_failure_aborts_run {B : Type} (e : Engine B) (oracle : String → Option Rep)
    (pre : List (String × Puzzle)) (pid : String) (p : Puzzle) (rest : List (String × Puzzle))
    (hpre : ∀ q ∈ pre, (puzzle_run e oracle q.1 q.2).1 ≠ none)
    (hfail : (puzzle_run e oracle pid p).1 = none) :
    (check_go e oracle (pre ++ (pid, p) :: rest)).1
      = pre.map (fun q => mkLine q.1 ((puzzle_run e oracle q.1 q.2).1.getD ∅)) := by
  induction pre with
  | nil =>
    rcases hpair : puzzle_run e oracle pid p with ⟨o, evs⟩
    cases o with
    | none => simp [check_go, hpair]
    | some res =>
      rw [hpair] at hfail
      exact absurd hfail (by simp)
  | cons q pre ih =>
    obtain ⟨pid1, p1⟩ := q
    rcases hpair : puzzle_run e oracle pid1 p1 with ⟨o, evs⟩
    cases o with
    | none =>
      refine absurd ?_ (hpre _ (List.mem_cons_self _ _))
      rw [hpair]
    | some res =>
      simp only [List.cons_append, check_go, hpair, List.map_cons, List.append_eq]
      rw [ih (fun q hq => hpre q (List.mem_cons_of_mem _ hq))]
      rfl

theorem oracle_failure_aborts_run_witness :
    (check_go witEngine cexOracle [("q", cexPuz2), ("p1", cexPuz1)]).1 = [mkLine "q" ∅] := by
  have h := oracle_failure_aborts_run witEngine cexOracle [("q", cexPuz2)] "p1" cexPuz1 []
    (by
      intro q hq
      simp only [List.mem_singleton] at hq
      subst hq
      decide)
    (by decide)
  simpa using h

/-- First whitespace-separated token of a ledger line (`line.split()[0]`;
lines written by the program always have one, `""` stands in otherwise). -/
def lineId (line : String) : String := (pyWords line).headD ""

/-- Method `FileHandler.remove_puzzles` of `t.py`, on the ledger contents: a line
is copied to the replacement file iff its id is not in `l_puzzle_id`; the
replacement then atomically overwrites the ledger. -/
def remove_puzzles (l_puzzle_id : Finset String) (ledger : List String) : List String :=
  ledger.filter (fun line => ¬ lineId line ∈ l_puzzle_id)

/-- C6 counterexample: with ids `{"a"}`, the line whose id is in the set is
removed and the line whose id is not in the set is kept — the opposite
polarity of the claim. -/
theorem remove_puzzles_counterexample :
    remove_puzzles {"a"} ["a Wrong\n", "b \n"] = ["b \n"]
    ∧ "a Wrong\n" ∉ remove_puzzles {"a"} ["a Wrong\n", "b \n"]
    ∧ "b \n" ∈ remove_puzzles {"a"} ["a Wrong\n", "b \n"] := by
  exact ⟨by decide, by decide, by decide⟩

/-- C6 (amended): the rewrite keeps exactly the ledger lines whose id is
NOT in the given set — every line whose id is in the set is removed — and
preserves their order (the rewrite goes through a temporary file that is
atomically renamed over the ledger). -/
theorem remove_puzzles_spec (ids : Finset String) (ledger : List String) :
    (∀ line : String, line ∈ remove_puzzles ids ledger ↔ line ∈ ledger ∧ lineId line ∉ ids)
    ∧ List.Sublist (remove_puzzles ids ledger) ledger := by
  constructor
  · intro line
    simp [remove_puzzles]
  · exact List.filter_sublist ledger

/-- Method `PuzzleChecker.list_puzzles_checked` of `t.py` on the ledger contents:
the set of first tokens of the lines (the duplicate-id warning is
diagnostics only and does not affect the returned set). -/
def list_puzzles_checked (ledger : List String) : Finset String :=
  ledger.foldl (fun s line => insert (lineId line) s) ∅

/-- Method `PuzzleChecker.list_unchecked_puzzles` of `t.py`, over the candidate
association list (`all_7p_puzzles.items()`) and the ledger contents. -/
def list_unchecked_puzzles (all7p : List (String × Puzzle)) (ledger : List String) :
    List (String × Puzzle) :=
  all7p.filter (fun x => ¬ x.1 ∈ list_puzzles_checked ledger)

lemma mem_foldl_insert (ledger : List String) :
    ∀ (init : Finset String) (s : String),
    s ∈ ledger.foldl (fun t line => insert (lineId line) t) init ↔
      s ∈ init ∨ ∃ line ∈ ledger, lineId line = s := by
  induction ledger with
  | nil => intro init s; simp
  | cons l ledger ih =>
    intro init s
    rw [List.foldl_cons, ih]
    simp only [Finset.mem_insert, List.mem_cons]
    constructor
    · rintro (⟨h | h⟩ | ⟨line, hline, h⟩)
      · exact Or.inr ⟨l, Or.inl rfl, h.symm⟩
      · exact Or.inl h
      · exact Or.inr ⟨line, Or.inr hline, h⟩
    · rintro (h | ⟨line, hline | hline, h⟩)
      · exact Or.inl (Or.inr h)
      · subst hline
        exact Or.inl (Or.inl h.symm)
      · exact Or.inr ⟨line, hline, h⟩

lemma mem_list_puzzles_checked (ledger : List String) (s : String) :
    s ∈ list_puzzles_checked ledger ↔ ∃ line ∈ ledger, lineId line = s := by
  rw [list_puzzles_checked, mem_foldl_insert]
  simp

/-- C7: a ledger of `N` lines with distinct round-tripping ids reloads to
exactly that set of `N` ids, each once; when every candidate id is already
checked, the unchecked list is empty, so re-running the driver makes no
oracle call and appends nothing. -/
theorem ledger_idempotent_no_recheck {B : Type} (e : Engine B) (oracle : String → Option Rep)
    (ids : List String) (f : String → Finset Error)
    (hnodup : ids.Nodup)
    (hround : ∀ pid ∈ ids, lineId (mkLine pid (f pid)) = pid) :
    (list_puzzles_checked (ids.map (fun pid => mkLine pid (f pid))) = ids.toFinset
     ∧ (list_puzzles_checked (ids.map (fun pid => mkLine pid (f pid)))).card = ids.length)
    ∧ ∀ candidates : List (String × Puzzle),
        (∀ c ∈ candidates, c.1 ∈ ids) →
        list_unchecked_puzzles candidates (ids.map (fun pid => mkLine pid (f pid))) = []
        ∧ check_go e oracle
            (list_unchecked_puzzles candidates (ids.map (fun pid => mkLine pid (f pid))))
          = ([], []) := by
  have hset : list_puzzles_checked (ids.map (fun pid => mkLine pid (f pid))) = ids.toFinset := by
    ext s
    rw [mem_list_puzzles_checked, List.mem_toFinset]
    constructor
    · rintro ⟨line, hline, h⟩
      rw [List.mem_map] at hline
      obtain ⟨pid, hpid, rfl⟩ := hline
      rw [hround pid hpid] at h
      rwa [← h]
    · intro hs
      exact ⟨mkLine s (f s), List.mem_map_of_mem _ hs, hround s hs⟩
  refine ⟨⟨hset, ?_⟩, ?_⟩
  · rw [hset]
    exact List.toFinset_card_of_nodup hnodup
  · intro candidates hcand
    have hempty : list_unchecked_puzzles candidates (ids.map (fun pid => mkLine pid (f pid)))
        = [] := by
      rw [list_unchecked_puzzles]
      rw [List.filter_eq_nil_iff]
      intro c hc
      simp only [hset, List.mem_toFinset, Bool.not_eq_true, decide_eq_false_iff_not, not_not]
      exact hcand c hc
    exact ⟨hempty, by rw [hempty]; rfl⟩

theorem ledger_idempotent_no_recheck_witness :
    list_puzzles_checked (["a", "b"].map (fun pid => mkLine pid ∅)) = {"a", "b"}
    ∧ list_unchecked_puzzles [("a", cexPuz2)]
        (["a", "b"].map (fun pid => mkLine pid ∅)) = []
    ∧ check_go witEngine cexOracle
        (list_unchecked_puzzles [("a", cexPuz2)] (["a", "b"].map (fun pid => mkLine pid ∅)))
      = ([], []) := by
  have h := ledger_idempotent_no_recheck witEngine cexOracle ["a", "b"]
    (fun _ => ∅) (by decide) (by decide)
  have h2 := h.2 [("a", cexPuz2)] (by decide)
  refine ⟨?_, h2.1, h2.2⟩
  rw [h.1.1]
  decide

/-- Fixture: puzzle with two verified positions (indices 1 and 3), so the
driver issues two oracle calls back to back with no sleep in between. -/
def ratePuz : Puzzle := { fen := "R", moves := ["a", "b", "c", "d"], expected_winning := true }

/-- An oracle that always answers with a clean win. -/
def okOracle : String → Option Rep := fun _ =>
  some { category := "win", dtm := none, moves := [] }

/-- C9 counterexample: the trace of one puzzle with two verified positions
has two adjacent oracle calls — no fixed delay separates two successive
calls issued within a single puzzle. -/
theorem rate_limit_counterexample :
    ¬ (∀ i j : Nat, i < j →
        (∃ pid f, ((check_go witEngine okOracle [("p", ratePuz)]).2)[i]?
          = some (Event.call pid f)) →
        (∃ pid f, ((check_go witEngine okOracle [("p", ratePuz)]).2)[j]?
          = some (Event.call pid f)) →
        (∀ k, i < k → k < j →
          ∀ pid f, ((check_go witEngine okOracle [("p", ratePuz)]).2)[k]?
            ≠ some (Event.call pid f)) →
        ∃ k, i < k ∧ k < j ∧
          ((check_go witEngine okOracle [("p", ratePuz)]).2)[k]? = some Event.sleep) := by
  intro h
  obtain ⟨k, h1, h2, -⟩ := h 0 1 (by omega)
    ⟨"p", "Ra", by decide⟩ ⟨"p", "Rabc", by decide⟩
    (fun k hk1 hk2 => by omega)
  omega

/-- C9 (amended): the fixed `time.sleep(0.55)` delay is executed once after
each completed puzzle, so a sleep event separates the oracle calls of
different puzzles — but, per the counterexample, not two calls within one
puzzle. -/
theorem sleep_between_puzzles {B : Type} (e : Engine B) (oracle : String → Option Rep) :
    ∀ (ps : List (String × Puzzle)) (i j : Nat) (pid1 f1 pid2 f2 : String),
    i < j →
    ((check_go e oracle ps).2)[i]? = some (Event.call pid1 f1) →
    ((check_go e oracle ps).2)[j]? = some (Event.call pid2 f2) →
    pid1 ≠ pid2 →
    ∃ k, i < k ∧ k < j ∧ ((check_go e oracle ps).2)[k]? = some Event.sleep := by
  intro ps
  induction ps with
  | nil =>
    intro i j pid1 f1 pid2 f2 hij hi hj hne
    simp [check_go] at hi
  | cons q ps ih =>
    obtain ⟨pid, p⟩ := q
    intro i j pid1 f1 pid2 f2 hij hi hj hne
    rcases hpair : puzzle_run e oracle pid p with ⟨o, evs⟩
    have hevs : ∀ ev ∈ evs, ∃ f, ev = Event.call pid f := by
      have h0 : ∀ ev ∈ (puzzle_run e oracle pid p).2, ∃ f, ev = Event.call pid f :=
        puzzle_run_go_calls e oracle pid p p.moves (e.initBoard p.fen) ∅ 0
      rw [hpair] at h0
      exact h0
    cases o with
    | none =>
      have htr : (check_go e oracle ((pid, p) :: ps)).2 = evs := by
        simp only [check_go, hpair]
      rw [htr] at hi hj
      obtain ⟨fa, hfa⟩ := hevs _ (List.getElem?_mem hi)
      obtain ⟨fb, hfb⟩ := hevs _ (List.getElem?_mem hj)
      injection hfa with ha1 ha2
      injection hfb with hb1 hb2
      exact absurd (ha1.trans hb1.symm) hne
    | some res =>
      have htr : (check_go e oracle ((pid, p) :: ps)).2
          = evs ++ Event.write (mkLine pid res) :: Event.sleep :: (check_go e oracle ps).2 := by
        simp only [check_go, hpair]
      rw [htr] at hi hj
      rw [List.getElem?_append] at hi hj
      by_cases hin : i < evs.length
      · rw [if_pos hin] at hi
        by_cases hjn : j < evs.length
        · rw [if_pos hjn] at hj
          obtain ⟨fa, hfa⟩ := hevs _ (List.getElem?_mem hi)
          obtain ⟨fb, hfb⟩ := hevs _ (List.getElem?_mem hj)
          injection hfa with ha1 ha2
          injection hfb with hb1 hb2
          exact absurd (ha1.trans hb1.symm) hne
        · rw [if_neg hjn] at hj
          have hj2 : 2 ≤ j - evs.length := by
            by_contra hlt
            have : j - evs.length = 0 ∨ j - evs.length = 1 := by omega
            rcases this with h0 | h0 <;> rw [h0] at hj <;> simp at hj
          refine ⟨evs.length + 1, by omega, by omega, ?_⟩
          rw [htr, List.getElem?_append, if_neg (by omega),
            show evs.length + 1 - evs.length = 1 from by omega,
            List.getElem?_cons_succ, List.getElem?_cons_zero]
      · rw [if_neg hin] at hi
        have hi2 : 2 ≤ i - evs.length := by
          by_contra hlt
          have : i - evs.length = 0 ∨ i - evs.length = 1 := by omega
          rcases this with h0 | h0 <;> rw [h0] at hi <;> simp at hi
        have hjn : ¬ j < evs.length := by omega
        rw [if_neg hjn] at hj
        rw [show i - evs.length = (i - evs.length - 2) + 2 from by omega,
          List.getElem?_cons_succ, List.getElem?_cons_succ] at hi
        rw [show j - evs.length = (j - evs.length - 2) + 2 from by omega,
          List.getElem?_cons_succ, List.getElem?_cons_succ] at hj
        obtain ⟨k, hk1, hk2, hk3⟩ :=
          ih (i - evs.length - 2) (j - evs.length - 2) pid1 f1 pid2 f2 (by omega) hi hj hne
        refine ⟨k + evs.length + 2, by omega, by omega, ?_⟩
        rw [htr, List.getElem?_append, if_neg (by omega),
          show k + evs.length + 2 - evs.length = (k + 1) + 1 from by omega,
          List.getElem?_cons_succ, List.getElem?_cons_succ]
        exact hk3

theorem sleep_between_puzzles_witness :
    ∃ k, 0 < k ∧ k < 3 ∧
      ((check_go witEngine okOracle [("p1", cexPuz2), ("p2", cexPuz1)]).2)[k]?
        = some Event.sleep :=
  sleep_between_puzzles witEngine okOracle [("p1", cexPuz2), ("p2", cexPuz1)]
    0 3 "p1" "Bx" "p2" "Ax" (by omega) (by decide) (by decide) (by decide)

/-- Character-list prefix test (Python string machinery, executable). -/
def chStarts : List Char → List Char → Bool
  | [], _ => true
  | _ :: _, [] => false
  | c :: cs, d :: ds => c == d && chStarts cs ds

/-- Character-list substring test. -/
def chContains (needle : List Char) : List Char → Bool
  | [] => chStarts needle []
  | c :: cs => chStarts needle (c :: cs) || chContains needle cs

/-- Python's substring test `needle in hay`. -/
def pyIn (needle hay : String) : Bool := chContains needle.toList hay.toList

/-- Python's `s[n:]` (drop the first `n` characters). -/
def pyDrop (s : String) (n : Nat) : String := String.mk (s.toList.drop n)

/-- Helper for `pyInt`: all-digit character list to a number. -/
def natOfChars (cs : List Char) : Option Nat :=
  if cs = [] ∨ ¬ cs.all (fun c => c.isDigit) then none
  else some (cs.foldl (fun n c => n * 10 + (c.toNat - 48)) 0)

/-- Python `int()` on the shapes occurring in theme tags: an optional minus
sign followed by decimal digits (`none` models the `ValueError` raised on
anything else; surrounding whitespace, `+` and `_` are not modelled). -/
def pyInt (s : String) : Option Int :=
  match s.toList with
  | '-' :: rest => (natOfChars rest).map (fun n => -(n : Int))
  | cs => (natOfChars cs).map (fun n => (n : Int))

/-- The two Python exceptions `only_mate_puzzles` can raise per row. -/
inductive PyErr where
  | assertionError
  | valueError
deriving DecidableEq, Repr

/-- The `mateIn` accumulation loop of `PuzzleChecker.only_mate_puzzles`:
for each theme token containing `"mateIn"`, assert no previous token did
(else `AssertionError`), then parse `int(theme[6:]) * 2` (a parse failure
is a `ValueError`). -/
def scan_mateIn : Option Int → List String → Except PyErr (Option Int)
  | acc, [] => Except.ok acc
  | acc, theme :: rest =>
    if pyIn "mateIn" theme then
      match acc with
      | some _ => Except.error PyErr.assertionError
      | none =>
        match pyInt (pyDrop theme 6) with
        | some k => scan_mateIn (some (k * 2)) rest
        | none => Except.error PyErr.valueError
    else scan_mateIn acc rest

/-- One database row, restricted to the fields the goal derivation uses. -/
structure Row where
  PuzzleId : String
  FEN : String
  Moves : String
  Themes : String
deriving DecidableEq, Repr

/-- Per-row body of `PuzzleChecker.only_mate_puzzles`: `ok none` means the
row is skipped (no `mate` tag), `error` models the raised exception (the
trailing `assert mateIn is not None` included). -/
def mk_mate_puzzle (row : Row) : Except PyErr (Option Puzzle) :=
  if ¬ pyIn "mate" row.Themes then Except.ok none
  else
    match scan_mateIn none (pyWords row.Themes) with
    | Except.error e => Except.error e
    | Except.ok none => Except.error PyErr.assertionError
    | Except.ok (some mateIn) =>
      Except.ok (some { fen := row.FEN, moves := pyWords row.Moves,
                        expected_winning := !(pyIn "equality" row.Themes),
                        mate := some mateIn })

/-- Per-row body of `PuzzleChecker.filtered_mate_puzzles`: mate rows are
skipped, the rest get `mate := none`. -/
def mk_filtered_puzzle (row : Row) : Option Puzzle :=
  if pyIn "mate" row.Themes then none
  else some { fen := row.FEN, moves := pyWords row.Moves,
              expected_winning := !(pyIn "equality" row.Themes), mate := none }

/-- Method `PuzzleChecker.only_mate_puzzles` over the row list: builds the
association list of mate puzzles; any raised exception aborts the whole
traversal. -/
def only_mate_puzzles (rows : List Row) : Except PyErr (List (String × Puzzle)) :=
  match rows with
  | [] => Except.ok []
  | row :: rest =>
    match mk_mate_puzzle row with
    | Except.error e => Except.error e
    | Except.ok none => only_mate_puzzles rest
    | Except.ok (some p) =>
      match only_mate_puzzles rest with
      | Except.error e => Except.error e
      | Except.ok l => Except.ok ((row.PuzzleId, p) :: l)

/-- The goal variant of the specification, read off a built `Puzzle` the
way `req` dispatches: `mate` first, then `expected_winning`. -/
inductive Goal where
  | Win
  | Draw
  | MateIn (n : Int)
deriving DecidableEq, Repr

/-- Goal carried by a `Puzzle`, mirroring the dispatch order of `req`. -/
def goal_of (p : Puzzle) : Goal :=
  match p.mate with
  | some n => Goal.MateIn n
  | none => if p.expected_winning then Goal.Win else Goal.Draw

lemma scan_mateIn_no_token :
    ∀ (l : List String) (acc : Option Int),
    (∀ u ∈ l, pyIn "mateIn" u = false) → scan_mateIn acc l = Except.ok acc := by
  intro l
  induction l with
  | nil => intro acc _; rfl
  | cons t l ih =>
    intro acc h
    have hskip : pyIn "mateIn" t = false := h t (List.mem_cons_self _ _)
    cases acc
    all_goals
      rw [scan_mateIn, if_neg (by rw [hskip]; simp)]
      exact ih _ (fun u hu => h u (List.mem_cons_of_mem _ hu))

lemma scan_mateIn_skip :
    ∀ (l : List String) (acc : Option Int) (rest : List String),
    (∀ u ∈ l, pyIn "mateIn" u = false) →
    scan_mateIn acc (l ++ rest) = scan_mateIn acc rest := by
  intro l
  induction l with
  | nil => intro acc rest _; rfl
  | cons t l ih =>
    intro acc rest h
    have hskip : pyIn "mateIn" t = false := h t (List.mem_cons_self _ _)
    rw [List.cons_append]
    cases acc
    all_goals
      rw [scan_mateIn, if_neg (by rw [hskip]; simp)]
      exact ih _ rest (fun u hu => h u (List.mem_cons_of_mem _ hu))

lemma scan_mateIn_second_token :
    ∀ (l : List String) (k : Int),
    (∃ t ∈ l, pyIn "mateIn" t = true) →
    scan_mateIn (some k) l = Except.error PyErr.assertionError := by
  intro l
  induction l with
  | nil => rintro k ⟨t, ht, -⟩; cases ht
  | cons t l ih =>
    rintro k ⟨u, hu, hpy⟩
    rw [scan_mateIn]
    by_cases ht : pyIn "mateIn" t = true
    · rw [if_pos ht]
    · rw [if_neg ht]
      rcases List.mem_cons.1 hu with rfl | hu'
      · exact absurd hpy ht
      · exact ih k ⟨u, hu', hpy⟩

lemma scan_mateIn_unique (pre : List String) (t : String) (post : List String) (k : Int)
    (hpre : ∀ u ∈ pre, pyIn "mateIn" u = false)
    (ht : pyIn "mateIn" t = true)
    (hk : pyInt (pyDrop t 6) = some k)
    (hpost : ∀ u ∈ post, pyIn "mateIn" u = false) :
    scan_mateIn none (pre ++ t :: post) = Except.ok (some (k * 2)) := by
  rw [scan_mateIn_skip pre none (t :: post) hpre, scan_mateIn, if_pos ht, hk]
  exact scan_mateIn_no_token post (some (k * 2)) hpost

lemma scan_mateIn_two :
    ∀ (l : List String),
    (∀ t ∈ l, pyIn "mateIn" t = true → pyInt (pyDrop t 6) ≠ none) →
    2 ≤ l.countP (fun t => pyIn "mateIn" t) →
    scan_mateIn none l = Except.error PyErr.assertionError := by
  intro l
  induction l with
  | nil => intro _ h; simp [List.countP_nil] at h
  | cons t l ih =>
    intro hparse hcount
    rw [scan_mateIn]
    by_cases ht : pyIn "mateIn" t = true
    · rw [if_pos ht]
      cases hk : pyInt (pyDrop t 6) with
      | none => exact absurd hk (hparse t (List.mem_cons_self _ _) ht)
      | some k =>
        have hone : 0 < l.countP (fun t => pyIn "mateIn" t) := by
          rw [List.countP_cons_of_pos _ l (by simpa using ht)] at hcount
          omega
        obtain ⟨u, hu, hpy⟩ := List.countP_pos_iff.1 hone
        exact scan_mateIn_second_token l (k * 2) ⟨u, hu, hpy⟩
    · rw [if_neg ht]
      refine ih (fun u hu => hparse u (List.mem_cons_of_mem _ hu)) ?_
      rwa [List.countP_cons_of_neg _ l ht] at hcount

lemma only_mate_puzzles_error :
    ∀ (rows : List Row) (row : Row), row ∈ rows →
    (∃ e, mk_mate_puzzle row = Except.error e) →
    ∃ err, only_mate_puzzles rows = Except.error err := by
  intro rows
  induction rows with
  | nil => intro row h; cases h
  | cons r rest ih =>
    rintro row hmem ⟨e, he⟩
    rcases List.mem_cons.1 hmem with rfl | hmem'
    · rw [only_mate_puzzles, he]
      exact ⟨e, rfl⟩
    · rw [only_mate_puzzles]
      cases hr : mk_mate_puzzle r with
      | error e2 => exact ⟨e2, rfl⟩
      | ok o =>
        obtain ⟨err, herr⟩ := ih row hmem' ⟨e, he⟩
        cases o with
        | none => exact ⟨err, herr⟩
        | some p =>
          rw [herr]
          exact ⟨err, rfl⟩

/-- C8: theme-derived goals — a `mate`-tagged row with a unique parsed
`mateIn` token becomes `MateIn` with the parsed number doubled into a ply
count; a non-mate row becomes `Draw` when `equality` occurs and `Win`
otherwise; and `req` dispatches on exactly this derived goal, mate taking
precedence. -/
theorem goal_derivation :
    (∀ (row : Row) (pre post : List String) (t : String) (k : Int),
      pyIn "mate" row.Themes = true →
      pyWords row.Themes = pre ++ t :: post →
      (∀ u ∈ pre, pyIn "mateIn" u = false) →
      pyIn "mateIn" t = true →
      pyInt (pyDrop t 6) = some k →
      (∀ u ∈ post, pyIn "mateIn" u = false) →
      ∃ p, mk_mate_puzzle row = Except.ok (some p) ∧ p.mate = some (k * 2) ∧
        goal_of p = Goal.MateIn (k * 2))
  ∧ (∀ row : Row, pyIn "mate" row.Themes = false → pyIn "equality" row.Themes = true →
      ∃ p, mk_filtered_puzzle row = some p ∧ goal_of p = Goal.Draw)
  ∧ (∀ row : Row, pyIn "mate" row.Themes = false → pyIn "equality" row.Themes = false →
      ∃ p, mk_filtered_puzzle row = some p ∧ goal_of p = Goal.Win)
  ∧ (∀ (p : Puzzle) (oracle : String → Rep) (fen exp : String) (i : Nat),
      (∀ n : Int, goal_of p = Goal.MateIn n →
        req oracle fen exp p i = check_mate fen exp (oracle fen) (n - (i : Int)))
      ∧ (goal_of p = Goal.Win → req oracle fen exp p i = check_winning fen exp (oracle fen))
      ∧ (goal_of p = Goal.Draw → req oracle fen exp p i = check_drawing fen exp (oracle fen))) := by
  refine ⟨?_, ?_, ?_, ?_⟩
  · intro row pre post t k hmate hsplit hpre ht hk hpost
    rw [mk_mate_puzzle, if_neg (by rw [hmate]; simp), hsplit,
      scan_mateIn_unique pre t post k hpre ht hk hpost]
    exact ⟨_, rfl, rfl, rfl⟩
  · intro row hmate heq
    rw [mk_filtered_puzzle, if_neg (by rw [hmate]; simp)]
    refine ⟨_, rfl, ?_⟩
    simp [goal_of, heq]
  · intro row hmate heq
    rw [mk_filtered_puzzle, if_neg (by rw [hmate]; simp)]
    refine ⟨_, rfl, ?_⟩
    simp [goal_of, heq]
  · intro p oracle fen exp i
    cases hm : p.mate with
    | some m =>
      refine ⟨?_, ?_, ?_⟩
      · intro n h
        rw [goal_of, hm] at h
        injection h with hmn
        subst hmn
        rw [req, req_rep, hm]
      · intro h
        rw [goal_of, hm] at h
        cases h
      · intro h
        rw [goal_of, hm] at h
        cases h
    | none =>
      cases hw : p.expected_winning with
      | true =>
        refine ⟨?_, ?_, ?_⟩
        · intro n h
          rw [goal_of, hm, hw] at h
          simp at h
        · intro h
          rw [req, req_rep, hm, if_pos hw]
        · intro h
          rw [goal_of, hm, hw] at h
          simp at h
      | false =>
        refine ⟨?_, ?_, ?_⟩
        · intro n h
          rw [goal_of, hm, hw] at h
          simp at h
        · intro h
          rw [goal_of, hm, hw] at h
          simp at h
        · intro h
          rw [req, req_rep, hm, if_neg (by rw [hw]; simp)]

/-- Witness row for C8: one `mateIn` token among the themes. -/
def c8Row : Row := { PuzzleId := "id1", FEN := "f", Moves := "a b",
                     Themes := "short mateIn2" }

theorem goal_derivation_witness :
    ∃ p, mk_mate_puzzle c8Row = Except.ok (some p) ∧ p.mate = some (2 * 2) ∧
      goal_of p = Goal.MateIn (2 * 2) :=
  goal_derivation.1 c8Row ["short"] [] "mateIn2" 2 (by decide) (by decide)
    (by decide) (by decide) (by decide) (by decide)

/-- C10: a mate-tagged row with no `mateIn` token — or at least two, their
numeric suffixes parseable — makes the goal derivation raise
`AssertionError`, and the whole `only_mate_puzzles` traversal aborts with
an exception instead of skipping the row or reporting a per-puzzle
diagnostic. -/
theorem mate_row_assertion_aborts (rows : List Row) (row : Row)
    (hmem : row ∈ rows)
    (hmate : pyIn "mate" row.Themes = true)
    (hparse : ∀ t ∈ pyWords row.Themes, pyIn "mateIn" t = true → pyInt (pyDrop t 6) ≠ none)
    (hbad : (pyWords row.Themes).countP (fun t => pyIn "mateIn" t) = 0 ∨
      2 ≤ (pyWords row.Themes).countP (fun t => pyIn "mateIn" t)) :
    mk_mate_puzzle row = Except.error PyErr.assertionError
    ∧ ∃ err, only_mate_puzzles rows = Except.error err := by
  have hrow : mk_mate_puzzle row = Except.error PyErr.assertionError := by
    rw [mk_mate_puzzle, if_neg (by rw [hmate]; simp)]
    rcases hbad with h0 | h2
    · rw [scan_mateIn_no_token _ none (by
        intro u hu
        have := (List.countP_eq_zero.1 h0) u hu
        simpa using this)]
    · rw [scan_mateIn_two _ hparse h2]
  exact ⟨hrow, only_mate_puzzles_error rows row hmem ⟨_, hrow⟩⟩

/-- Witness row for C10: mate-tagged, no `mateIn` token at all. -/
def c10Row : Row := { PuzzleId := "id2", FEN := "f", Moves := "a b", Themes := "mate" }

theorem mate_row_assertion_aborts_witness :
    mk_mate_puzzle c10Row = Except.error PyErr.assertionError
    ∧ ∃ err, only_mate_puzzles [c10Row] = Except.error err :=
  mate_row_assertion_aborts [c10Row] c10Row (by decide) (by decide) (by decide)
    (Or.inl (by decide))

theorem check_puzzle_verification_points_witness :
    1 ∈ check_puzzle_calls witEngine wOracleC1 wPuzzleC1
    ∧ 0 ∉ check_puzzle_calls witEngine wOracleC1 wPuzzleC1 := by
  have h := check_puzzle_verification_points witEngine wOracleC1 wPuzzleC1
  constructor
  · exact (h.1 1).mpr ⟨by decide, by decide, by decide⟩
  · intro hx
    obtain ⟨-, h1, -⟩ := (h.1 0).mp hx
    exact absurd h1 (by decide)

theorem remove_puzzles_spec_witness :
    "b \n" ∈ remove_puzzles {"a"} ["b \n"] := by
  have h := remove_puzzles_spec {"a"} ["b \n"]
  exact (h.1 "b \n").mpr ⟨by decide, by decide⟩

end CheckPuzzlesTb
